import Mathlib

/-!
# PADI driver (`src/main.cpp`): trace model and properties

The driver is embedded as a function from the inputs one process group receives
(parsed parameters, the answers of the HDF5 store, the status of the grid setup,
the initial bytes of the name table) and a rank to the ordered list of calls that
the process of that rank makes.  Each statement of `main` contributes its calls in
program order; `MPI_Abort`, a modulo by zero, an access outside the name table and
a broadcast whose root never arrives end the list (`until_halt`).

Collaborators whose code is not in `main.cpp` (`H5Grid`, `MPIGrid`, `mpitimer`,
`integrate`, `preprocess`, `postprocess`, the logger) appear as events; what
they return is an input.  A `std::string` is a sequence of bytes: a field name is
copied into the name table as its UTF-8 bytes (`c_str`), and the names read back
from the table, and the paths built from them, are strings of bytes, one `Char`
per byte.  Values of type `int` are modelled by `Int`, with the
truncating `Int.tdiv` and `Int.tmod` for `/` and `%`; the loop counter stays
within `1..nsteps`.
-/

namespace PADI

/-! ## Formatting: `output_path` -/

/-- Effect of `std::setw(w) << std::setfill(c)` on the next formatted item, with
the default (right) adjustment: the fill goes in front. -/
def setw_fill (w : Nat) (c : Char) (item : List Char) : List Char :=
  List.replicate (w - item.length) c ++ item

/-- Characters written by `ss << num` for an `int` in decimal. -/
def int_chars (num : Int) : List Char :=
  (Int.repr num).data

/-- Source: `output_path` (main.cpp 133-138):
`ss << "/" << phase_name << "/" << std::setw(6) << std::setfill('0') << num`. -/
def output_path (phase_name : String) (num : Int) : String :=
  String.mk (('/' :: phase_name.data) ++ ('/' :: setw_fill 6 '0' (int_chars num)))

/-- Numeric value of a string of decimal digits, most significant digit first. -/
def decimal_value (d : List Char) : Nat :=
  d.foldl (fun acc c => acc * 10 + (c.toNat - 48)) 0

/-! ## The name table `phase_names` -/

/-- The terminating byte of a C string.  The name table and the strings read back
from it are sequences of bytes, each held as the `Char` with the same code. -/
def NUL : Char := Char.ofNat 0

/-- Width of one slot of `phase_names` (the literal `100` of main.cpp 216-225). -/
def SLOT : Nat := 100

/-- C library `strncpy(buf + off, src, n)`: copies the characters of `src` up to
its first NUL, at most `n` of them, and pads with NUL up to `n` characters.
`none` when the `n` characters do not fit in `buf`. -/
def strncpy (buf : List Char) (off : Nat) (src : List Char) (n : Nat) : Option (List Char) :=
  if off + n ≤ buf.length then
    let body := (src.takeWhile (fun c => c != NUL)).take n
    some (buf.take off ++ (body ++ (List.replicate (n - body.length) NUL ++ buf.drop (off + n))))
  else none

/-- Conversion `std::string(buf + off)` of a C string: the characters from `off`
up to the first NUL; `none` when there is no NUL before the end of `buf`. -/
def c_string (buf : List Char) (off : Nat) : Option String :=
  if (buf.drop off).any (fun c => c == NUL) then
    some (String.mk ((buf.drop off).takeWhile (fun c => c != NUL)))
  else none

/-- The bytes of the `std::string` that holds the given text, in UTF-8, each byte
held as the `Char` with the same code.  `name.c_str()` points at these bytes and
`name.length()` is their number. -/
def c_str (name : String) : List Char :=
  (name.data.flatMap String.utf8EncodeChar).map (fun b => Char.ofNat b.toNat)

/-- A `std::string` seen as the string of its bytes; equal to the text itself when
the text is ASCII. -/
def byte_string (name : String) : String :=
  String.mk (c_str name)

/-- Source: main.cpp 217-218, the loop
`strncpy(phase_names+i*100, name_list[i].c_str(), name_list[i].length())`
from index `i` on; the length is the number of bytes of the name. -/
def copy_names : Nat → List String → List Char → Option (List Char)
  | _, [], buf => some buf
  | i, nm :: rest, buf =>
    match strncpy buf (i * SLOT) (c_str nm) (c_str nm).length with
    | some buf1 => copy_names (i + 1) rest buf1
    | none => none

/-- Source: main.cpp 216, `new char [100*nphases]`: the fresh array holds whatever
bytes `heap` gives. -/
def fresh_table (heap : Nat → Char) (nphases : Nat) : List Char :=
  (List.range (SLOT * nphases)).map heap

/-! ## Inputs -/

/-- Answers of the `H5Grid` store to the calls of the driver. -/
structure Store where
  /-- status of `h5.open(init_file, "r", ...)` -/
  open_status : Int
  /-- `global_dims` as filled in by that open -/
  global_dims : Int × Int × Int
  /-- status of `h5.list("/", name_list)` -/
  list_status : Int
  /-- names put in `name_list` by `h5.list` -/
  name_list : List String
  /-- whether `new double [vol*name_list.size()]` throws `std::bad_alloc` -/
  bad_alloc : Bool
  /-- status of `h5.read_dataset(name, ...)` -/
  read_status : String → Int
  /-- status of `h5.open("strand.h5", mode, ...)` at the given step (0: before stepping) -/
  out_open_status : Int → Int
  /-- status of `h5.write_dataset(path, ...)` for field `i` at the given step -/
  write_status : Int → Nat → Int

/-- What one process group is run with.  Every rank parses the same `input.txt`, so
`nsteps`, `output_frequency` and `init_file` are the same on all ranks. -/
structure Run where
  /-- size of `MPI_COMM_WORLD` -/
  np : Nat
  /-- the macro `SPF_NDIMS` (its header is not part of `main.cpp`) -/
  SPF_NDIMS : Int
  /-- `params["init_file"]` -/
  init_file : String
  /-- `std::stoi(params["nsteps"])` -/
  nsteps : Int
  /-- `std::stoi(params["output_frequency"])` -/
  output_frequency : Int
  /-- the store as seen by rank 0 -/
  h5 : Store
  /-- bytes found in freshly allocated `char` storage -/
  heap : Nat → Char
  /-- status of `grid.setup(MPI_COMM_WORLD, global_dims, np_dims, SPF_NDIMS, SPF_NROWS,
  local_dims)`; `MPIGrid` is not part of `main.cpp`, and the arguments are the same on
  every rank (`global_dims` and `np_dims` are broadcast), so one status serves all ranks -/
  setup_status : Int

/-! ## Events -/

/-- The four stopwatches of `main`. -/
inductive Timer
  | comm_time | comp_time | io_time | total_time
  deriving DecidableEq, Repr

/-- Levels of `FILE_LOG`. -/
inductive Level
  | logERROR | logINFO | logDEBUG
  deriving DecidableEq, Repr

/-- What the four startup broadcasts carry. -/
inductive Payload
  | nphases | phase_names | global_dims | np_dims
  deriving DecidableEq, Repr

/-- One call made by a process, or the fault that ends it: `modulo_by_zero` for `%`
with a zero divisor, `out_of_bounds` for a `strncpy` or a C-string read that leaves
`phase_names`, `never_returns` for a rank other than 0 waiting in the first
`MPI_Bcast` when rank 0 has stopped before reaching it. -/
inductive Event
  | MPI_Init
  | MPI_Finalize
  | mpitimer_start (t : Timer)
  | mpitimer_stop (t : Timer)
  | logStart
  | readParameters
  | logParameters
  | MPI_Recv (source : Nat)
  | MPI_Send (dest : Nat)
  | h5_open (file : String) (mode : String) (status : Int)
  | h5_list (status : Int)
  | h5_read_dataset (name : String) (status : Int)
  | h5_write_dataset (path : String) (status : Int)
  | h5_close
  | FILE_LOG (level : Level) (text : String)
  | MPI_Bcast (what : Payload)
  | MPI_Dims_create
  | grid_setup (status : Int)
  | grid_scatter (i : Nat)
  | grid_share (i : Nat)
  | grid_gather (i : Nat)
  | preprocess
  | integrate
  | postprocess
  | updateLog (istep : Int) (nsteps : Int)
  | MPI_Abort (errorcode : Int)
  | modulo_by_zero
  | out_of_bounds
  | never_returns
  deriving DecidableEq, Repr

namespace Event

/-- Events after which the process makes no further call. -/
def halts : Event → Bool
  | MPI_Abort _ => true
  | modulo_by_zero => true
  | out_of_bounds => true
  | never_returns => true
  | _ => false

/-- Calls on the checkpoint store. -/
def store_access : Event → Bool
  | h5_open _ _ _ => true
  | h5_list _ => true
  | h5_read_dataset _ _ => true
  | h5_write_dataset _ _ => true
  | h5_close => true
  | _ => false

end Event

/-- The calls made up to and including the first one that halts the process. -/
def until_halt : List Event → List Event
  | [] => []
  | e :: rest => if e.halts then [e] else e :: until_halt rest

/-- Paths given to `write_dataset`, in call order. -/
def written_paths (trace : List Event) : List String :=
  trace.filterMap (fun e => match e with
    | Event.h5_write_dataset path _ => some path
    | _ => none)

/-! ## The driver -/

open Event Timer Level

/-- Source: `readGlobalData` (main.cpp 86-87): dimensionality of the stored grid. -/
def data_ndims (global_dims : Int × Int × Int) : Int :=
  if global_dims.2.2 > 0 then 3 else if global_dims.2.1 > 0 then 2 else 1

/-- Source: `readGlobalData` (main.cpp 66-131), called on rank 0 only. -/
def readGlobalData (h5 : Store) (filename : String) (SPF_NDIMS : Int) : List Event :=
  [h5_open filename "r" h5.open_status]
  ++ (if h5.open_status > 0 then
        [FILE_LOG logERROR ("Error opening file " ++ filename),
         FILE_LOG logERROR ("H5GRID OPEN CODE: " ++ toString h5.open_status),
         MPI_Abort 0]
      else [])
  ++ (if data_ndims h5.global_dims ≠ SPF_NDIMS then
        [FILE_LOG logERROR ("Data has dimensionality = " ++ toString (data_ndims h5.global_dims)),
         FILE_LOG logERROR ("Simulation has dimensionality = " ++ toString SPF_NDIMS),
         MPI_Abort 0]
      else [])
  ++ [h5_list h5.list_status]
  ++ (if h5.list_status > 0 then
        [FILE_LOG logERROR ("Error reading order parameters from file " ++ filename),
         FILE_LOG logERROR ("H5GRID LIST CODE: " ++ toString h5.list_status),
         MPI_Abort 0]
      else [])
  ++ (if h5.bad_alloc then
        [FILE_LOG logERROR "Bad Alloc Global Data: ", MPI_Abort 0]
      else [])
  ++ h5.name_list.flatMap (fun name =>
        h5_read_dataset name (h5.read_status name) ::
        (if h5.read_status name > 0 then
          [FILE_LOG logERROR ("Error reading datasets from file " ++ filename),
           FILE_LOG logERROR ("H5GRID READ_DATASET CODE: " ++ toString (h5.read_status name)),
           MPI_Abort 0]
        else []))
  ++ [h5_close]

/-- Number of fields, `nphases = name_list.size()` (main.cpp 215), broadcast to all ranks. -/
def nphases (e : Run) : Nat :=
  e.h5.name_list.length

/-- Source: main.cpp 216-218: the name table built on rank 0, `none` when a
`strncpy` writes past its end. -/
def phase_names (e : Run) : Option (List Char) :=
  copy_names 0 e.h5.name_list (fresh_table e.heap (nphases e))

/-- Source: the conversion of `phase_names+i*100` to `std::string` (main.cpp 268,
298, 343), as the string of its bytes.  Every rank has made this conversion for
every `i` at line 268 before the first path is built, so the fallback is never used
in a trace. -/
def phase_name (table : List Char) (i : Nat) : String :=
  (c_string table (i * SLOT)).getD ""

/-- Source: main.cpp 211-219, rank 0 only: read the initial data, build the name table. -/
def root_init (e : Run) : List Event :=
  readGlobalData e.h5 e.init_file e.SPF_NDIMS
  ++ (if (phase_names e).isSome then [] else [out_of_bounds])

/-- The `nphases` and name table that rank 0 broadcasts, when it gets that far. -/
def root_broadcast (e : Run) : Option (Nat × List Char) :=
  if (root_init e).any halts then none
  else (phase_names e).map (fun table => (nphases e, table))

/-- Source: main.cpp 336-348: on rank 0, one `write_dataset` per field into `strand.h5`. -/
def write_fields (e : Run) (table : List Char) (step : Int) (index : Int) : List Event :=
  (List.range (nphases e)).map (fun i =>
    h5_write_dataset (output_path (phase_name table i) index) (e.h5.write_status step i))

/-- Source: main.cpp 325-348, the body of `if (istep % output_frequency == 0)`. -/
def output_events (e : Run) (rank : Nat) (table : List Char) (istep : Int) : List Event :=
  [mpitimer_start io_time, FILE_LOG logDEBUG "Gather data"]
  ++ (List.range (nphases e)).map grid_gather
  ++ (if e.nsteps.tdiv 10 = 0 then [modulo_by_zero] else [])
  ++ (if istep.tmod (e.nsteps.tdiv 10) = 0 ∧ rank = 0 then [updateLog istep e.nsteps] else [])
  ++ (if rank = 0 then
        [FILE_LOG logDEBUG "Master outputing data",
         h5_open "strand.h5" "a" (e.h5.out_open_status istep)]
        ++ write_fields e table istep (istep.tdiv e.output_frequency)
        ++ [h5_close, mpitimer_stop io_time]
      else [])

/-- Source: main.cpp 310-349, one pass through the body of the time-stepping loop. -/
def step_events (e : Run) (rank : Nat) (table : List Char) (istep : Int) : List Event :=
  [FILE_LOG logDEBUG ("Step: " ++ toString istep),
   mpitimer_start comp_time, integrate, mpitimer_stop comp_time,
   FILE_LOG logDEBUG "Share data", mpitimer_start comm_time]
  ++ (List.range (nphases e)).map grid_share
  ++ [mpitimer_stop comm_time]
  ++ (if e.output_frequency = 0 then [modulo_by_zero] else [])
  ++ (if istep.tmod e.output_frequency = 0 then output_events e rank table istep else [])

/-- Values taken by `istep` in `for (int istep=1; istep<=nsteps; istep++)`: `1..nsteps`,
none when `nsteps < 1`. -/
def steps (nsteps : Int) : List Int :=
  (List.range' 1 nsteps.toNat).map Int.ofNat

/-- Source: main.cpp 161-304, everything before the time-stepping loop. -/
def init_events (e : Run) (rank : Nat) : List Event :=
  let table := (phase_names e).getD []
  [MPI_Init, mpitimer_start total_time, logStart]
  ++ (if rank ≠ 0 then [MPI_Recv (rank - 1)] else [])
  ++ [readParameters]
  ++ (if rank + 1 ≠ e.np then [MPI_Send (rank + 1)] else [])
  ++ (if rank = 0 then [logParameters] else [])
  ++ (if rank = 0 then root_init e else [])
  ++ [MPI_Bcast Payload.nphases]
  ++ (if rank ≠ 0 ∧ (root_broadcast e).isNone then [never_returns] else [])
  ++ [MPI_Bcast Payload.phase_names, MPI_Bcast Payload.global_dims, MPI_Bcast Payload.np_dims,
      MPI_Dims_create, grid_setup e.setup_status]
  ++ (if e.setup_status > 0 then
        [FILE_LOG logERROR ("MPIGRID SETUP CODE: " ++ toString e.setup_status), MPI_Abort 0]
      else [])
  ++ (if rank = 0 then
        [FILE_LOG logINFO "", FILE_LOG logINFO "Number of Processors: ",
         FILE_LOG logINFO "Number of Dimensions: ", FILE_LOG logINFO "Global Grid Dimensions: ",
         FILE_LOG logINFO "Processor Dimensions: ", FILE_LOG logINFO "Local Grid Dimensions: ",
         FILE_LOG logINFO ""]
      else [])
  ++ (if (List.range (nphases e)).all (fun i => (c_string table (i * SLOT)).isSome) then []
      else [out_of_bounds])
  ++ (List.range (nphases e)).map grid_scatter
  ++ (List.range (nphases e)).map grid_share
  ++ (if rank = 0 then
        [h5_open "strand.h5" "w" (e.h5.out_open_status 0)]
        ++ write_fields e table 0 0
        ++ [h5_close]
      else [])
  ++ [preprocess]

/-- Source: main.cpp 308-350, the time-stepping loop. -/
def loop_events (e : Run) (rank : Nat) : List Event :=
  (steps e.nsteps).flatMap (step_events e rank ((phase_names e).getD []))

/-- Source: main.cpp 352-390, everything after the loop. -/
def final_events (rank : Nat) : List Event :=
  [FILE_LOG logDEBUG "Postprocess", postprocess]
  ++ (if rank = 0 then
        [mpitimer_stop total_time,
         FILE_LOG logINFO "", FILE_LOG logINFO "Computation Time (%):   ",
         FILE_LOG logINFO "Communication Time (%): ", FILE_LOG logINFO "Input/Output Time (%):  ",
         FILE_LOG logINFO "Total Time (s):     ", FILE_LOG logINFO "Elapsed Time: "]
      else [])
  ++ [MPI_Finalize]

/-- Source: `main` (main.cpp 158-392): the calls made by the process of the given rank,
up to and including the first one that halts it. -/
def main (e : Run) (rank : Nat) : List Event :=
  until_halt (init_events e rank ++ loop_events e rank ++ final_events rank)

/-- Whether the process of the given rank gets to the time-stepping loop. -/
def reaches_stepping (e : Run) (rank : Nat) : Bool :=
  !(init_events e rank).any halts

/-- Source: `updateLog` (main.cpp 146-147) over the rationals:
`fraction_completed = istep / nsteps`,
`remaining_time = (1.0/fraction_completed - 1.0)*elapsed_time`. -/
def remaining_time (istep nsteps : Int) (elapsed_time : ℚ) : ℚ :=
  let fraction_completed : ℚ := (istep : ℚ) / (nsteps : ℚ)
  (1 / fraction_completed - 1) * elapsed_time

/-! ## Sample runs -/

/-- A store that answers every call with the given statuses and holds the given fields
on a one-dimensional grid. -/
def sample_store (names : List String) (open_status write_status : Int) : Store where
  open_status := open_status
  global_dims := (8, 0, 0)
  list_status := 0
  name_list := names
  bad_alloc := false
  read_status := fun _ => 0
  out_open_status := fun _ => 0
  write_status := fun _ _ => write_status

/-- A one-dimensional run with zero-filled fresh storage. -/
def sample_run (np : Nat) (nsteps output_frequency : Int) (h5 : Store) (setup_status : Int) :
    Run where
  np := np
  SPF_NDIMS := 1
  init_file := "init.h5"
  nsteps := nsteps
  output_frequency := output_frequency
  h5 := h5
  heap := fun _ => NUL
  setup_status := setup_status

/-- A one-process run, one field `phi`, ten steps, output every five steps, in which
every `write_dataset` returns status 1. -/
def failing_writes_run : Run :=
  sample_run 1 10 5 (sample_store ["phi"] 0 1) 0

/-- A field name of 53 characters and 103 bytes: fifty times the two-byte character
U+00E9, followed by `xyz`. -/
def two_byte_name : String :=
  String.mk (List.replicate 50 (Char.ofNat 233) ++ ['x', 'y', 'z'])

/-- A field name of 103 characters: a hundred `a` followed by `xyz`. -/
def long_name : String :=
  String.mk (List.replicate 100 'a' ++ ['x', 'y', 'z'])

/-! ## Observations on traces and the stated schedule -/

/-- A call of `readGlobalData` on the initial-condition store that returned a status
above zero. -/
def read_failure : Event → Bool
  | h5_open _ mode status => mode == "r" && decide (0 < status)
  | h5_list status => decide (0 < status)
  | h5_read_dataset _ status => decide (0 < status)
  | _ => false

/-- The next three calls are two error lines and `MPI_Abort` with code 0. -/
def abort_next : List Event → Bool
  | FILE_LOG logERROR _ :: FILE_LOG logERROR _ :: MPI_Abort 0 :: _ => true
  | _ => false

/-- Every failed call on the initial-condition store is directly followed by two
error lines and `MPI_Abort`. -/
def read_failures_abort : List Event → Bool
  | [] => true
  | ev :: rest => (!read_failure ev || abort_next rest) && read_failures_abort rest

/-- Content of one slot of a zero-filled name table after a name of fewer than 100
bytes is copied in. -/
def slot (name : String) : List Char :=
  c_str name ++ List.replicate (SLOT - (c_str name).length) NUL

/-- Part of an output step that precedes the start of the I/O stopwatch
(main.cpp 310-320). -/
def before_io (e : Run) (istep : Int) : List Event :=
  [FILE_LOG logDEBUG ("Step: " ++ toString istep),
   mpitimer_start comp_time, integrate, mpitimer_stop comp_time,
   FILE_LOG logDEBUG "Share data", mpitimer_start comm_time]
  ++ (List.range (nphases e)).map grid_share
  ++ [mpitimer_stop comm_time]

/-- Part of an output step between the start of the I/O stopwatch and the end of
the step, the stop of the stopwatch on rank 0 left out (main.cpp 327-346). -/
def timed_io (e : Run) (rank : Nat) (table : List Char) (istep : Int) : List Event :=
  [FILE_LOG logDEBUG "Gather data"]
  ++ (List.range (nphases e)).map grid_gather
  ++ (if istep.tmod (e.nsteps.tdiv 10) = 0 ∧ rank = 0 then [updateLog istep e.nsteps] else [])
  ++ (if rank = 0 then
        [FILE_LOG logDEBUG "Master outputing data",
         h5_open "strand.h5" "a" (e.h5.out_open_status istep)]
        ++ write_fields e table istep (istep.tdiv e.output_frequency)
        ++ [h5_close]
      else [])

/-! ## Decimal rendering -/

theorem digitChar_isDigit (d : Nat) (h : d < 10) : (Nat.digitChar d).isDigit = true := by
  interval_cases d <;> decide

theorem digitChar_value (d : Nat) (h : d < 10) : (Nat.digitChar d).toNat - 48 = d := by
  interval_cases d <;> decide

theorem toDigitsCore_isDigit (fuel : Nat) : ∀ (n : Nat) (ds : List Char),
    (∀ c ∈ ds, c.isDigit = true) → ∀ c ∈ Nat.toDigitsCore 10 fuel n ds, c.isDigit = true := by
  induction fuel with
  | zero => intro n ds h; simpa [Nat.toDigitsCore] using h
  | succ fuel ih =>
    intro n ds h
    have hd : ∀ c ∈ Nat.digitChar (n % 10) :: ds, c.isDigit = true := by
      intro c hc
      rcases List.mem_cons.mp hc with rfl | hc
      · exact digitChar_isDigit _ (Nat.mod_lt _ (by decide))
      · exact h c hc
    simp only [Nat.toDigitsCore]
    split
    · exact hd
    · exact ih _ _ hd

theorem toDigitsCore_value (fuel : Nat) : ∀ (n : Nat) (ds : List Char), n < fuel →
    decimal_value (Nat.toDigitsCore 10 fuel n ds)
      = ds.foldl (fun acc c => acc * 10 + (c.toNat - 48)) n := by
  induction fuel with
  | zero => intro n ds h; omega
  | succ fuel ih =>
    intro n ds h
    simp only [Nat.toDigitsCore]
    split
    · rename_i h0
      have hn : n % 10 = n := Nat.mod_eq_of_lt (by omega)
      have hv := digitChar_value (n % 10) (Nat.mod_lt n (by decide))
      rw [hn] at hv
      simp [decimal_value, hn, hv]
    · rename_i h0
      rw [ih _ _ (by omega)]
      simp only [List.foldl_cons, digitChar_value _ (Nat.mod_lt n (by decide))]
      congr 1
      omega

theorem repr_isDigit (n : Nat) : ∀ c ∈ (Nat.repr n).data, c.isDigit = true := by
  simpa [Nat.repr, Nat.toDigits] using toDigitsCore_isDigit (n + 1) n [] (by simp)

theorem repr_value (n : Nat) : decimal_value (Nat.repr n).data = n := by
  simpa [Nat.repr, Nat.toDigits] using toDigitsCore_value (n + 1) n [] (by omega)

theorem decimal_value_fill (k : Nat) (d : List Char) :
    decimal_value (List.replicate k '0' ++ d) = decimal_value d := by
  induction k with
  | zero => simp
  | succ k ih =>
    simp only [List.replicate_succ, List.cons_append]
    simp only [decimal_value, List.foldl_cons] at ih ⊢
    simpa using ih

theorem int_chars_natCast (n : Nat) : int_chars (n : Int) = (Nat.repr n).data := rfl

theorem setw_fill_isDigit (n : Nat) : ∀ c ∈ setw_fill 6 '0' (int_chars (n : Int)), c.isDigit = true := by
  intro c hc
  simp only [setw_fill, int_chars_natCast, List.mem_append, List.mem_replicate] at hc
  rcases hc with ⟨_, rfl⟩ | hc
  · decide
  · exact repr_isDigit n c hc

theorem setw_fill_value (n : Nat) : decimal_value (setw_fill 6 '0' (int_chars (n : Int))) = n := by
  simp only [setw_fill, int_chars_natCast, decimal_value_fill, repr_value]

/-- C4: for `0 <= num <= 999999`, `output_path name num` is `"/" ++ name ++ "/" ++ d`
where `d` has exactly six characters, all decimal digits, has numeric value `num`,
and is the decimal rendering of `num` with `'0'` filled in on the left. -/
theorem output_path_six_digits (name : String) (num : Int) (h0 : 0 ≤ num) (h1 : num ≤ 999999) :
    ∃ d : List Char,
      output_path name num = "/" ++ name ++ "/" ++ String.mk d ∧
      d.length = 6 ∧
      (∀ c ∈ d, c.isDigit = true) ∧
      (decimal_value d : Int) = num ∧
      ∃ k, d = List.replicate k '0' ++ (Nat.repr num.toNat).data := by
  obtain ⟨n, rfl⟩ := Int.eq_ofNat_of_zero_le h0
  have hn : n < 10 ^ 6 := by omega
  have hlen : (Nat.repr n).length ≤ 6 := Nat.repr_length n 6 (by decide) hn
  refine ⟨setw_fill 6 '0' (int_chars (n : Int)), ?_, ?_, setw_fill_isDigit n, ?_, ?_⟩
  · apply String.ext
    simp [output_path]
  · simp only [setw_fill, int_chars_natCast, List.length_append, List.length_replicate]
    have : (Nat.repr n).data.length = (Nat.repr n).length := rfl
    omega
  · rw [setw_fill_value]
  · exact ⟨6 - (Nat.repr n).data.length, by simp [setw_fill, int_chars_natCast]⟩

/-- C4 at `("phi", 42)`: the path is `/phi/000042`. -/
theorem output_path_six_digits_witness :
    output_path "phi" 42 = "/phi/000042" ∧
    ∃ d : List Char,
      output_path "phi" 42 = "/" ++ "phi" ++ "/" ++ String.mk d ∧
      d.length = 6 ∧
      (∀ c ∈ d, c.isDigit = true) ∧
      (decimal_value d : Int) = 42 ∧
      ∃ k, d = List.replicate k '0' ++ (Nat.repr (42 : Int).toNat).data :=
  ⟨by decide, output_path_six_digits "phi" 42 (by decide) (by decide)⟩

/-- C8: over the rationals, for `nsteps > 0`, `1 <= istep <= nsteps` and
`elapsed >= 0`, the remaining time of `updateLog` is
`(1 / (istep / nsteps) - 1) * elapsed`; it is 100 when the fraction is 1/2 and
`elapsed = 100`; it is 0 at `istep = nsteps`; it is non-negative; and it does not
increase as `istep` grows. -/
theorem remaining_time_extrapolation (istep nsteps : Int) (elapsed : ℚ)
    (hn : 0 < nsteps) (h1 : 1 ≤ istep) (h2 : istep ≤ nsteps) (he : 0 ≤ elapsed) :
    remaining_time istep nsteps elapsed = (1 / ((istep : ℚ) / (nsteps : ℚ)) - 1) * elapsed ∧
    ((istep : ℚ) / (nsteps : ℚ) = 1 / 2 → remaining_time istep nsteps 100 = 100) ∧
    remaining_time nsteps nsteps elapsed = 0 ∧
    0 ≤ remaining_time istep nsteps elapsed ∧
    (∀ later : Int, istep ≤ later → later ≤ nsteps →
      remaining_time later nsteps elapsed ≤ remaining_time istep nsteps elapsed) := by
  have hnq : (0 : ℚ) < (nsteps : ℚ) := by exact_mod_cast hn
  have hiq : (0 : ℚ) < (istep : ℚ) := by exact_mod_cast (by omega : 0 < istep)
  have hle : (istep : ℚ) ≤ (nsteps : ℚ) := by exact_mod_cast h2
  refine ⟨rfl, ?_, ?_, ?_, ?_⟩
  · intro hhalf
    simp only [remaining_time, hhalf]
    norm_num
  · simp only [remaining_time]
    rw [div_self (ne_of_gt hnq)]
    norm_num
  · simp only [remaining_time, one_div, inv_div]
    apply mul_nonneg _ he
    rw [sub_nonneg, le_div_iff₀ hiq]
    linarith
  · intro later hl1 hl2
    have hlq : (0 : ℚ) < (later : ℚ) := by exact_mod_cast (by omega : 0 < later)
    have hil : (istep : ℚ) ≤ (later : ℚ) := by exact_mod_cast hl1
    simp only [remaining_time, one_div, inv_div]
    apply mul_le_mul_of_nonneg_right _ he
    apply sub_le_sub_right
    exact div_le_div_of_nonneg_left (le_of_lt hnq) hiq hil

/-- C8 at `istep = 5`, `nsteps = 10`, `elapsed = 100`: the remaining time is 100. -/
theorem remaining_time_extrapolation_witness :
    remaining_time 5 10 100 = 100 ∧ remaining_time 10 10 100 = 0 := by
  have h := remaining_time_extrapolation 5 10 100 (by decide) (by decide) (by decide) (by norm_num)
  exact ⟨h.2.1 (by norm_num), h.2.2.1⟩

/-! ## Traces cut at the first halting event -/

theorem halts_iff (ev : Event) :
    ev.halts = true ↔
      (∃ c, ev = MPI_Abort c) ∨ ev = modulo_by_zero ∨ ev = out_of_bounds ∨ ev = never_returns := by
  cases ev <;> simp [Event.halts]

theorem halts_false_iff (ev : Event) :
    ev.halts = false ↔
      (∀ c, ev ≠ MPI_Abort c) ∧ ev ≠ modulo_by_zero ∧ ev ≠ out_of_bounds ∧ ev ≠ never_returns := by
  cases ev <;> simp [Event.halts]

theorem until_halt_subset (l : List Event) : ∀ ev ∈ until_halt l, ev ∈ l := by
  induction l with
  | nil => simp [until_halt]
  | cons a l ih =>
    intro ev hev
    simp only [until_halt] at hev
    split at hev
    · simp only [List.mem_singleton] at hev
      simp [hev]
    · rcases List.mem_cons.mp hev with h | h
      · simp [h]
      · exact List.mem_cons_of_mem _ (ih ev h)

theorem until_halt_append (a b : List Event) (h : ∀ ev ∈ a, ev.halts = false) :
    until_halt (a ++ b) = a ++ until_halt b := by
  induction a with
  | nil => rfl
  | cons x a ih =>
    have hx : x.halts = false := h x (List.mem_cons_self _ _)
    have ih2 := ih (fun ev hev => h ev (List.mem_cons_of_mem _ hev))
    simp only [List.cons_append, until_halt, hx, Bool.false_eq_true, if_false]
    exact congrArg (List.cons x) ih2

theorem until_halt_id (l : List Event) (h : ∀ ev ∈ l, ev.halts = false) : until_halt l = l := by
  have := until_halt_append l [] h
  simpa [until_halt] using this

theorem until_halt_last (l : List Event) (h : ∃ ev ∈ l, ev.halts = true) :
    ∃ ev ∈ l, ev.halts = true ∧ (until_halt l).getLast? = some ev := by
  induction l with
  | nil => simp at h
  | cons a l ih =>
    by_cases ha : a.halts = true
    · exact ⟨a, List.mem_cons_self _ _, ha, by simp [until_halt, ha]⟩
    · obtain ⟨ev, hev, hh⟩ := h
      have hev2 : ev ∈ l := by
        rcases List.mem_cons.mp hev with rfl | h2
        · exact absurd hh ha
        · exact h2
      obtain ⟨w, hw, hwh, hlast⟩ := ih ⟨ev, hev2, hh⟩
      refine ⟨w, List.mem_cons_of_mem _ hw, hwh, ?_⟩
      have ha2 : a.halts = false := by simpa using ha
      simp only [until_halt, ha2, Bool.false_eq_true, if_false]
      have hne : until_halt l ≠ [] := by
        intro h0
        rw [h0] at hlast
        simp at hlast
      obtain ⟨y, ys, hy⟩ := List.exists_cons_of_ne_nil hne
      rw [hy] at hlast ⊢
      simpa [List.getLast?_cons_cons] using hlast

/-! ## Abort codes -/

theorem abort_code_in_events (e : Run) (rank : Nat) (c : Int)
    (h : MPI_Abort c ∈ init_events e rank ++ loop_events e rank ++ final_events rank) : c = 0 := by
  simp only [init_events, root_init, readGlobalData, loop_events, step_events, output_events,
    write_fields, final_events, List.mem_append, List.mem_flatMap, List.mem_map, List.mem_cons,
    List.mem_singleton, List.mem_ite_nil_right, List.mem_ite_nil_left] at h
  aesop

/-- C6 (amended): whenever the driver ends the run through `MPI_Abort`, on any rank and
for any error (store open, list or read failure, dimensionality mismatch, allocation
failure, grid setup failure), the error code it passes is 0. -/
theorem abort_code_is_zero (e : Run) (rank : Nat) (c : Int) (h : MPI_Abort c ∈ main e rank) :
    c = 0 :=
  abort_code_in_events e rank c (until_halt_subset _ _ h)

/-- C6 at a run whose initial store open fails: the abort code is 0. -/
theorem abort_code_is_zero_witness :
    MPI_Abort 0 ∈ main (sample_run 1 10 5 (sample_store ["phi"] 1 0) 0) 0 ∧ (0 : Int) = 0 :=
  ⟨by decide, abort_code_is_zero (sample_run 1 10 5 (sample_store ["phi"] 1 0) 0) 0 0 (by decide)⟩

/-- C6 refuted as stated: the initial store open fails with status 1, the run ends
with `MPI_Abort`, and the code passed is not non-zero. -/
theorem abort_code_nonzero_fails :
    (main (sample_run 1 10 5 (sample_store ["phi"] 1 0) 0) 0).getLast? = some (MPI_Abort 0) ∧
    ¬ (∀ c, MPI_Abort c ∈ main (sample_run 1 10 5 (sample_store ["phi"] 1 0) 0) 0 → c ≠ 0) := by
  refine ⟨by decide, ?_⟩
  intro h
  exact h 0 (by decide) rfl

/-! ## Evaluations on sample runs -/

/-- C1 fails on the code: every `write_dataset` of this run returns status 1, yet
the trace holds no halting event, ends with `MPI_Finalize`, and after the first
failed write come a time step and a further store write. -/
theorem write_status_ignored :
    h5_write_dataset "/phi/000000" 1 ∈ main failing_writes_run 0 ∧
    integrate ∈ (main failing_writes_run 0).dropWhile
      (fun ev => ev != h5_write_dataset "/phi/000000" 1) ∧
    h5_write_dataset "/phi/000001" 1 ∈ (main failing_writes_run 0).dropWhile
      (fun ev => ev != h5_write_dataset "/phi/000000" 1) ∧
    (main failing_writes_run 0).any halts = false ∧
    (main failing_writes_run 0).getLast? = some MPI_Finalize := by
  decide

/-- C7 refuted as stated: with `nsteps = 10` and `output_frequency = 2`, step 1
satisfies `1 mod (10 / 10) = 0` but rank 0 makes no progress report in it. -/
theorem progress_report_not_every_tenth :
    ¬ (updateLog 1 10 ∈ main (sample_run 1 10 2 (sample_store ["phi"] 0 0) 0) 0
        ↔ (1 : Int).tmod ((10 : Int).tdiv 10) = 0) := by
  decide

/-- C9 refuted as stated: rank 1 starts the I/O stopwatch, and on rank 0 a gather
lies between the start and the stop of the I/O stopwatch. -/
theorem io_stopwatch_covers_gather :
    mpitimer_start io_time ∈ main (sample_run 2 10 5 (sample_store ["phi"] 0 0) 0) 1 ∧
    ((main (sample_run 2 10 5 (sample_store ["phi"] 0 0) 0) 0).dropWhile
        (fun ev => ev != mpitimer_start io_time)).takeWhile (fun ev => ev != mpitimer_stop io_time)
      = [mpitimer_start io_time, FILE_LOG logDEBUG "Gather data", grid_gather 0,
         updateLog 5 10, FILE_LOG logDEBUG "Master outputing data",
         h5_open "strand.h5" "a" 0, h5_write_dataset "/phi/000001" 0, h5_close] := by
  decide

/-- C10 refuted as stated: with `nsteps = 5` and `output_frequency = 6` no step is an
output step, no modulo by zero is reached and the run ends with `MPI_Finalize`. -/
theorem short_run_without_output_completes :
    modulo_by_zero ∉ main (sample_run 1 5 6 (sample_store ["phi"] 0 0) 0) 0 ∧
    (main (sample_run 1 5 6 (sample_store ["phi"] 0 0) 0) 0).getLast? = some MPI_Finalize := by
  decide

/-! ## Shape of a whole trace -/

theorem reaches_stepping_iff (e : Run) (rank : Nat) :
    reaches_stepping e rank = true ↔ ∀ ev ∈ init_events e rank, ev.halts = false := by
  simp [reaches_stepping]

theorem main_of_reaches (e : Run) (rank : Nat) (h : reaches_stepping e rank = true) :
    main e rank = init_events e rank ++ until_halt (loop_events e rank ++ final_events rank) := by
  unfold main
  rw [List.append_assoc]
  exact until_halt_append _ _ ((reaches_stepping_iff e rank).mp h)

theorem final_events_no_halt (rank : Nat) : ∀ ev ∈ final_events rank, ev.halts = false := by
  intro ev hev
  rw [halts_false_iff]
  simp only [final_events, List.mem_append, List.mem_cons, List.mem_singleton,
    List.mem_ite_nil_right] at hev
  aesop

theorem loop_halt_is_modulo (e : Run) (rank : Nat) :
    ∀ ev ∈ loop_events e rank, ev.halts = true → ev = modulo_by_zero := by
  intro ev hev hh
  rw [halts_iff] at hh
  simp only [loop_events, step_events, output_events, write_fields, List.mem_append,
    List.mem_flatMap, List.mem_map, List.mem_cons, List.mem_singleton,
    List.mem_ite_nil_right] at hev
  aesop

theorem mem_steps (nsteps istep : Int) : istep ∈ steps nsteps ↔ 1 ≤ istep ∧ istep ≤ nsteps := by
  simp only [steps, List.mem_map, List.mem_range'_1]
  constructor
  · rintro ⟨a, ⟨h1, h2⟩, rfl⟩
    simp only [Int.ofNat_eq_coe]
    omega
  · rintro ⟨h1, h2⟩
    refine ⟨istep.toNat, ⟨by omega, by omega⟩, ?_⟩
    simp only [Int.ofNat_eq_coe]
    omega

theorem tdiv_ten_eq_zero (nsteps : Int) (h1 : 1 ≤ nsteps) (h9 : nsteps ≤ 9) :
    nsteps.tdiv 10 = 0 := by
  interval_cases nsteps <;> decide

/-- C10 (amended): in a run that gets to the time-stepping loop, with
`1 <= nsteps <= 9` and `1 <= output_frequency <= nsteps`, the driver evaluates
`istep mod (nsteps / 10)` with a zero divisor, and that is the last thing it does. -/
theorem short_run_reaches_modulo_by_zero (e : Run) (rank : Nat)
    (hr : reaches_stepping e rank = true)
    (h1 : 1 ≤ e.nsteps) (h9 : e.nsteps ≤ 9)
    (hf1 : 1 ≤ e.output_frequency) (hf2 : e.output_frequency ≤ e.nsteps) :
    modulo_by_zero ∈ main e rank ∧ (main e rank).getLast? = some modulo_by_zero := by
  have hz := tdiv_ten_eq_zero e.nsteps h1 h9
  have hmem : modulo_by_zero ∈ loop_events e rank := by
    simp only [loop_events, List.mem_flatMap]
    refine ⟨e.output_frequency, (mem_steps _ _).mpr ⟨hf1, hf2⟩, ?_⟩
    simp [step_events, output_events, hz, Int.tmod_self]
  obtain ⟨ev, hev, hh, hlast⟩ := until_halt_last (loop_events e rank ++ final_events rank)
    ⟨modulo_by_zero, List.mem_append_left _ hmem, rfl⟩
  have hev2 : ev = modulo_by_zero := by
    rcases List.mem_append.mp hev with h | h
    · exact loop_halt_is_modulo e rank ev h hh
    · rw [final_events_no_halt rank ev h] at hh
      exact absurd hh (by decide)
  subst hev2
  have hne : until_halt (loop_events e rank ++ final_events rank) ≠ [] := by
    intro h0
    rw [h0] at hlast
    simp at hlast
  rw [main_of_reaches e rank hr]
  constructor
  · exact List.mem_append_right _ (List.mem_of_getLast?_eq_some hlast)
  · rw [List.getLast?_append_of_ne_nil _ hne]
    exact hlast

/-- C10 (amended) at `nsteps = 5`, `output_frequency = 5` on rank 0. -/
theorem short_run_reaches_modulo_by_zero_witness :
    modulo_by_zero ∈ main (sample_run 1 5 5 (sample_store ["phi"] 0 0) 0) 0 ∧
    (main (sample_run 1 5 5 (sample_store ["phi"] 0 0) 0) 0).getLast? = some modulo_by_zero :=
  short_run_reaches_modulo_by_zero (sample_run 1 5 5 (sample_store ["phi"] 0 0) 0) 0
    (by decide) (by decide) (by decide) (by decide) (by decide)

/-! ## Runs that complete -/

theorem loop_no_halt (e : Run) (rank : Nat) (hf : e.output_frequency ≠ 0)
    (hd : e.nsteps.tdiv 10 ≠ 0) : ∀ ev ∈ loop_events e rank, ev.halts = false := by
  intro ev hev
  rw [halts_false_iff]
  simp only [loop_events, step_events, output_events, write_fields, List.mem_append,
    List.mem_flatMap, List.mem_map, List.mem_cons, List.mem_singleton,
    List.mem_ite_nil_right] at hev
  aesop

theorem main_complete (e : Run) (rank : Nat) (hr : reaches_stepping e rank = true)
    (hf : e.output_frequency ≠ 0) (hd : e.nsteps.tdiv 10 ≠ 0) :
    main e rank = init_events e rank ++ loop_events e rank ++ final_events rank := by
  rw [main_of_reaches e rank hr, until_halt_id, List.append_assoc]
  intro ev hev
  rcases List.mem_append.mp hev with h | h
  · exact loop_no_halt e rank hf hd ev h
  · exact final_events_no_halt rank ev h

theorem tdiv_ten_ne_zero (nsteps : Int) (h : 10 ≤ nsteps) : nsteps.tdiv 10 ≠ 0 := by
  rw [Int.tdiv_eq_ediv (by omega) (by decide)]
  omega

theorem updateLog_not_in_init (e : Run) (rank : Nat) (a b : Int) :
    updateLog a b ∉ init_events e rank := by
  intro hev
  simp only [init_events, root_init, readGlobalData, write_fields, List.mem_append,
    List.mem_flatMap, List.mem_map, List.mem_cons, List.mem_singleton,
    List.mem_ite_nil_right, List.mem_ite_nil_left] at hev
  aesop

theorem updateLog_not_in_final (rank : Nat) (a b : Int) : updateLog a b ∉ final_events rank := by
  intro hev
  simp only [final_events, List.mem_append, List.mem_cons, List.mem_singleton,
    List.mem_ite_nil_right] at hev
  aesop

theorem updateLog_in_step (e : Run) (rank : Nat) (table : List Char) (s istep : Int) :
    updateLog istep e.nsteps ∈ step_events e rank table s ↔
      s = istep ∧ istep.tmod e.output_frequency = 0 ∧
      istep.tmod (e.nsteps.tdiv 10) = 0 ∧ rank = 0 := by
  simp only [step_events, output_events, write_fields, List.mem_append,
    List.mem_map, List.mem_cons, List.mem_singleton, List.mem_ite_nil_right]
  constructor
  · intro h
    aesop
  · rintro ⟨rfl, h1, h2, h3⟩
    simp [h1, h2, h3]

/-- C7 (amended): in a run in which rank 0 gets to the time-stepping loop, with
`nsteps >= 10` and `output_frequency >= 1`, rank 0 makes a progress report in
step `istep` (`1 <= istep <= nsteps`) if and only if `istep` is an output step,
`istep mod output_frequency = 0`, and `istep mod (nsteps / 10) = 0`. -/
theorem progress_report_iff (e : Run) (istep : Int)
    (hr : reaches_stepping e 0 = true) (hn : 10 ≤ e.nsteps) (hf : 1 ≤ e.output_frequency)
    (h1 : 1 ≤ istep) (h2 : istep ≤ e.nsteps) :
    updateLog istep e.nsteps ∈ main e 0 ↔
      istep % e.output_frequency = 0 ∧ istep % (e.nsteps / 10) = 0 := by
  have hd := tdiv_ten_ne_zero e.nsteps hn
  have hd2 : e.nsteps.tdiv 10 = e.nsteps / 10 := Int.tdiv_eq_ediv (by omega) (by decide)
  have hm1 : istep.tmod e.output_frequency = istep % e.output_frequency :=
    Int.tmod_eq_emod (by omega) (by omega)
  have hm2 : istep.tmod (e.nsteps / 10) = istep % (e.nsteps / 10) :=
    Int.tmod_eq_emod (by omega) (by omega)
  rw [main_complete e 0 hr (by omega) hd]
  simp only [List.mem_append, updateLog_not_in_init, updateLog_not_in_final, loop_events,
    List.mem_flatMap, updateLog_in_step, mem_steps, false_or, or_false]
  rw [hd2, hm1, hm2]
  constructor
  · rintro ⟨s, _, rfl, ha, hb, _⟩
    exact ⟨ha, hb⟩
  · rintro ⟨ha, hb⟩
    exact ⟨istep, ⟨h1, h2⟩, rfl, ha, hb, trivial⟩

/-- C7 (amended) at `nsteps = 10`, `output_frequency = 2`, `istep = 4`. -/
theorem progress_report_iff_witness :
    updateLog 4 10 ∈ main (sample_run 1 10 2 (sample_store ["phi"] 0 0) 0) 0 :=
  (progress_report_iff (sample_run 1 10 2 (sample_store ["phi"] 0 0) 0) 4
    (by decide) (by decide) (by decide) (by decide) (by decide)).mpr (by decide)

/-! ## Rank independence -/

theorem step_events_split (e : Run) (rank : Nat) (table : List Char) (istep : Int)
    (hf : e.output_frequency ≠ 0) (hs : istep.tmod e.output_frequency = 0)
    (hd : e.nsteps.tdiv 10 ≠ 0) :
    step_events e rank table istep
      = before_io e istep ++ [mpitimer_start io_time] ++ timed_io e rank table istep
          ++ (if rank = 0 then [mpitimer_stop io_time] else []) := by
  simp only [step_events, output_events, before_io, timed_io, hf, hs, hd, if_true, if_false]
  by_cases h0 : rank = 0 <;> simp [h0]

theorem before_io_events (e : Run) (istep : Int) :
    ∀ ev ∈ before_io e istep, ev ≠ mpitimer_start io_time ∧ ev ≠ mpitimer_stop io_time ∧
      ev.store_access = false ∧ ∀ i, ev ≠ grid_gather i := by
  intro ev hev
  simp only [before_io, List.mem_append, List.mem_cons, List.mem_singleton, List.mem_map,
    List.not_mem_nil, or_false] at hev
  rcases hev with (h | ⟨i, _, rfl⟩) | rfl
  · rcases h with rfl | rfl | rfl | rfl | rfl | rfl <;>
      exact ⟨by simp, by simp, rfl, by simp⟩
  · exact ⟨by simp, by simp, rfl, by simp⟩
  · exact ⟨by simp, by simp, rfl, by simp⟩

theorem timed_io_events (e : Run) (rank : Nat) (table : List Char) (istep : Int) :
    ∀ ev ∈ timed_io e rank table istep,
      ev ≠ mpitimer_start io_time ∧ ev ≠ mpitimer_stop io_time := by
  intro ev hev
  simp only [timed_io, write_fields, List.mem_append, List.mem_cons, List.mem_singleton,
    List.mem_map, List.mem_ite_nil_right, List.not_mem_nil, or_false] at hev
  rcases hev with ((rfl | ⟨i, _, rfl⟩) | ⟨_, rfl⟩) | ⟨_, (h | ⟨i, _, rfl⟩) | rfl⟩
  · exact ⟨by simp, by simp⟩
  · exact ⟨by simp, by simp⟩
  · exact ⟨by simp, by simp⟩
  · rcases h with rfl | rfl <;> exact ⟨by simp, by simp⟩
  · exact ⟨by simp, by simp⟩
  · exact ⟨by simp, by simp⟩

theorem timed_io_no_store (e : Run) (rank : Nat) (table : List Char) (istep : Int)
    (h0 : rank ≠ 0) : ∀ ev ∈ timed_io e rank table istep, ev.store_access = false := by
  intro ev hev
  simp only [timed_io, h0, and_false, if_false, List.append_nil, List.mem_append,
    List.mem_singleton, List.mem_map] at hev
  rcases hev with rfl | ⟨i, _, rfl⟩ <;> rfl

theorem step_in_main (e : Run) (rank : Nat) (istep : Int)
    (hr : reaches_stepping e rank = true) (hn : 10 ≤ e.nsteps) (hf : 1 ≤ e.output_frequency)
    (h1 : 1 ≤ istep) (h2 : istep ≤ e.nsteps) :
    ∃ earlier later,
      main e rank = earlier ++ step_events e rank ((phase_names e).getD []) istep ++ later := by
  obtain ⟨s, t, hst⟩ := List.append_of_mem ((mem_steps e.nsteps istep).mpr ⟨h1, h2⟩)
  refine ⟨init_events e rank ++ s.flatMap (step_events e rank ((phase_names e).getD [])),
    t.flatMap (step_events e rank ((phase_names e).getD [])) ++ final_events rank, ?_⟩
  rw [main_complete e rank hr (by omega) (tdiv_ten_ne_zero _ hn), loop_events, hst]
  simp [List.flatMap_append, List.append_assoc]

/-- C9 (amended): in every output step of a run with `nsteps >= 10` and
`output_frequency >= 1`, every rank starts the I/O stopwatch once, before the
gathers; a rank other than 0 does not stop it and makes no store access; rank 0
stops it once, at the end of the step, so that the timed interval holds every
gather of the step together with the store open, the writes and the store close. -/
theorem io_stopwatch_interval (e : Run) (rank : Nat) (istep : Int)
    (hr : reaches_stepping e rank = true) (hn : 10 ≤ e.nsteps) (hf : 1 ≤ e.output_frequency)
    (h1 : 1 ≤ istep) (h2 : istep ≤ e.nsteps) (hs : istep % e.output_frequency = 0) :
    ∃ earlier before timed later,
      main e rank = earlier
        ++ (before ++ [mpitimer_start io_time] ++ timed
            ++ (if rank = 0 then [mpitimer_stop io_time] else []))
        ++ later ∧
      step_events e rank ((phase_names e).getD []) istep
        = before ++ [mpitimer_start io_time] ++ timed
            ++ (if rank = 0 then [mpitimer_stop io_time] else []) ∧
      (∀ ev ∈ before, ev ≠ mpitimer_start io_time ∧ ev ≠ mpitimer_stop io_time ∧
        ev.store_access = false ∧ ∀ i, ev ≠ grid_gather i) ∧
      (∀ ev ∈ timed, ev ≠ mpitimer_start io_time ∧ ev ≠ mpitimer_stop io_time) ∧
      (∀ i, i < nphases e → grid_gather i ∈ timed) ∧
      (rank = 0 →
        h5_open "strand.h5" "a" (e.h5.out_open_status istep) ∈ timed ∧ h5_close ∈ timed ∧
        ∀ i, i < nphases e →
          h5_write_dataset
            (output_path (phase_name ((phase_names e).getD []) i) (istep / e.output_frequency))
            (e.h5.write_status istep i) ∈ timed) ∧
      (rank ≠ 0 → ∀ ev ∈ timed, ev.store_access = false) := by
  obtain ⟨earlier, later, hmain⟩ := step_in_main e rank istep hr hn hf h1 h2
  have hs2 : istep.tmod e.output_frequency = 0 := by
    rw [Int.tmod_eq_emod (by omega) (by omega)]
    exact hs
  have hq : istep.tdiv e.output_frequency = istep / e.output_frequency :=
    Int.tdiv_eq_ediv (by omega) (by omega)
  have hstep := step_events_split e rank ((phase_names e).getD []) istep (by omega) hs2
    (tdiv_ten_ne_zero e.nsteps hn)
  refine ⟨earlier, before_io e istep, timed_io e rank ((phase_names e).getD []) istep, later,
    ?_, hstep, before_io_events e istep, timed_io_events e rank _ istep, ?_, ?_,
    fun h0 => timed_io_no_store e rank _ istep h0⟩
  · rw [hmain, hstep]
  · intro i hi
    simp only [timed_io, List.mem_append, List.mem_map, List.mem_range]
    exact Or.inl (Or.inl (Or.inr ⟨i, hi, rfl⟩))
  · intro h0
    subst h0
    simp only [timed_io, write_fields, hq, if_true, List.mem_append, List.mem_cons,
      List.mem_singleton, List.mem_map, List.mem_range]
    refine ⟨by simp, by simp, ?_⟩
    intro i hi
    exact Or.inr (Or.inl (Or.inr ⟨i, hi, rfl⟩))

/-- C9 (amended) at step 5 of a two-process run, on rank 1. -/
theorem io_stopwatch_interval_witness :
    ∃ earlier before timed later,
      main (sample_run 2 10 5 (sample_store ["phi"] 0 0) 0) 1 = earlier
        ++ (before ++ [mpitimer_start io_time] ++ timed ++ [])
        ++ later ∧
      (∀ ev ∈ before, ev ≠ mpitimer_start io_time) ∧
      (∀ i, i < 1 → grid_gather i ∈ timed) := by
  obtain ⟨earlier, before, timed, later, hm, _, hb, _, hg, _, _⟩ :=
    io_stopwatch_interval (sample_run 2 10 5 (sample_store ["phi"] 0 0) 0) 1 5
      (by decide) (by decide) (by decide) (by decide) (by decide) (by decide)
  exact ⟨earlier, before, timed, later, hm, fun ev hev => (hb ev hev).1, hg⟩

/-! ## The name table with short names and zero-filled storage -/

theorem takeWhile_no_nul (l : List Char) (h : NUL ∉ l) :
    l.takeWhile (fun c => c != NUL) = l := by
  rw [List.takeWhile_eq_self_iff]
  intro c hc
  simp only [bne_iff_ne, ne_eq]
  rintro rfl
  exact h hc

theorem slot_length (name : String) (h : (c_str name).length < SLOT) :
    (slot name).length = SLOT := by
  simp only [slot, List.length_append, List.length_replicate]
  omega

theorem strncpy_zero_tail (head : List Char) (name : String) (m : Nat)
    (hlen : (c_str name).length < SLOT) (hnul : NUL ∉ c_str name) :
    strncpy (head ++ List.replicate (SLOT * (m + 1)) NUL) head.length (c_str name)
        (c_str name).length
      = some ((head ++ slot name) ++ List.replicate (SLOT * m) NUL) := by
  have hfit : head.length + (c_str name).length
      ≤ (head ++ List.replicate (SLOT * (m + 1)) NUL).length := by
    simp only [List.length_append, List.length_replicate]
    nlinarith
  simp only [strncpy, hfit, if_true, takeWhile_no_nul _ hnul]
  rw [List.take_length]
  simp only [Nat.sub_self, List.replicate_zero, List.nil_append, List.take_left',
    List.drop_append, List.drop_replicate, slot, List.append_assoc]
  congr 3
  rw [← List.replicate_add]
  congr 1
  have : SLOT * (m + 1) = SLOT * m + SLOT := by ring
  omega

theorem copy_names_zero (names : List String) : ∀ (i : Nat) (head : List Char),
    head.length = i * SLOT → (∀ name ∈ names, (c_str name).length < SLOT ∧ NUL ∉ c_str name) →
    copy_names i names (head ++ List.replicate (SLOT * names.length) NUL)
      = some (head ++ names.flatMap slot) := by
  induction names with
  | nil => intro i head _ _; simp [copy_names]
  | cons name rest ih =>
    intro i head hhead hall
    obtain ⟨hlen, hnul⟩ := hall name (List.mem_cons_self _ _)
    have hstep := strncpy_zero_tail head name rest.length hlen hnul
    rw [hhead] at hstep
    simp only [copy_names, List.length_cons, hstep]
    rw [ih (i + 1) (head ++ slot name)
      (by rw [List.length_append, slot_length name hlen, hhead]; ring)
      (fun nm hnm => hall nm (List.mem_cons_of_mem _ hnm))]
    simp [List.flatMap_cons]

theorem phase_names_zero (e : Run) (hheap : ∀ i, i < SLOT * nphases e → e.heap i = NUL)
    (hall : ∀ name ∈ e.h5.name_list, (c_str name).length < SLOT ∧ NUL ∉ c_str name) :
    phase_names e = some (e.h5.name_list.flatMap slot) := by
  have hfresh : fresh_table e.heap (nphases e)
      = [] ++ List.replicate (SLOT * e.h5.name_list.length) NUL := by
    simp only [fresh_table, nphases, List.nil_append]
    apply List.ext_getElem
    · simp
    · intro i h1 h2
      have hi : i < SLOT * nphases e := by simpa [fresh_table] using h1
      simp [hheap i hi]
  rw [phase_names, hfresh, copy_names_zero e.h5.name_list 0 [] (by simp) hall]
  simp

theorem drop_slots (names : List String) (hall : ∀ name ∈ names, (c_str name).length < SLOT) :
    ∀ i, (names.flatMap slot).drop (i * SLOT) = (names.drop i).flatMap slot := by
  induction names with
  | nil => intro i; simp
  | cons name rest ih =>
    intro i
    cases i with
    | zero => simp
    | succ i =>
      have hl := slot_length name (hall name (List.mem_cons_self _ _))
      have hi : (i + 1) * SLOT = (slot name).length + i * SLOT := by rw [hl]; ring
      rw [List.flatMap_cons, hi, List.drop_append, List.drop_succ_cons]
      exact ih (fun nm hnm => hall nm (List.mem_cons_of_mem _ hnm)) i

theorem takeWhile_until (p : Char → Bool) (l : List Char) (x : Char) (t : List Char)
    (hl : ∀ c ∈ l, p c = true) (hx : p x = false) : (l ++ x :: t).takeWhile p = l := by
  induction l with
  | nil => simp [List.takeWhile, hx]
  | cons a l ih =>
    have ha : p a = true := hl a (List.mem_cons_self _ _)
    simp only [List.cons_append, List.takeWhile_cons, ha, if_true]
    rw [ih (fun c hc => hl c (List.mem_cons_of_mem _ hc))]

theorem c_string_slot (name : String) (t : List Char)
    (hlen : (c_str name).length < SLOT) (hnul : NUL ∉ c_str name) :
    c_string (slot name ++ t) 0 = some (byte_string name) := by
  obtain ⟨k, hk⟩ : ∃ k, SLOT - (c_str name).length = k + 1 :=
    ⟨SLOT - (c_str name).length - 1, by omega⟩
  have hshape : slot name ++ t = c_str name ++ NUL :: (List.replicate k NUL ++ t) := by
    simp [slot, hk, List.replicate_succ]
  have hany : (slot name ++ t).any (fun c => c == NUL) = true := by
    rw [hshape]
    simp
  have htw : (slot name ++ t).takeWhile (fun c => c != NUL) = c_str name := by
    rw [hshape]
    apply takeWhile_until
    · intro c hc
      simp only [bne_iff_ne, ne_eq]
      rintro rfl
      exact hnul hc
    · simp
  simp only [c_string, List.drop_zero, hany, if_true, htw, byte_string]

theorem phase_name_slots (names : List String)
    (hall : ∀ name ∈ names, (c_str name).length < SLOT ∧ NUL ∉ c_str name) (i : Nat)
    (hi : i < names.length) :
    c_string (names.flatMap slot) (i * SLOT) = some (byte_string (names.get ⟨i, hi⟩)) := by
  have hdrop := drop_slots names (fun nm hnm => (hall nm hnm).1) i
  have hsplit : names.drop i = names.get ⟨i, hi⟩ :: names.drop (i + 1) := by
    simp
  obtain ⟨hlen, hnul⟩ := hall (names.get ⟨i, hi⟩) (List.get_mem _ _ _)
  have h0 := c_string_slot (names.get ⟨i, hi⟩) ((names.drop (i + 1)).flatMap slot) hlen hnul
  simp only [c_string, List.drop_zero] at h0
  simp only [c_string, hdrop, hsplit, List.flatMap_cons]
  exact h0

theorem phase_name_list (names : List String)
    (hall : ∀ name ∈ names, (c_str name).length < SLOT ∧ NUL ∉ c_str name) :
    (List.range names.length).map (phase_name (names.flatMap slot))
      = names.map byte_string := by
  apply List.ext_getElem
  · simp
  · intro i h1 h2
    have hi : i < names.length := by simpa using h2
    simp only [List.getElem_map, List.getElem_range, phase_name,
      phase_name_slots names hall i hi, Option.getD_some]
    rfl

theorem names_readable (names : List String)
    (hall : ∀ name ∈ names, (c_str name).length < SLOT ∧ NUL ∉ c_str name) :
    (List.range names.length).all
      (fun i => (c_string (names.flatMap slot) (i * SLOT)).isSome) = true := by
  simp only [List.all_eq_true, List.mem_range]
  intro i hi
  rw [phase_name_slots names hall i hi]
  rfl

theorem written_paths_append (a b : List Event) :
    written_paths (a ++ b) = written_paths a ++ written_paths b := by
  simp [written_paths]

theorem written_paths_flatMap {α : Type} (l : List α) (f : α → List Event) :
    written_paths (l.flatMap f) = l.flatMap (fun x => written_paths (f x)) := by
  induction l with
  | nil => rfl
  | cons a l ih => simp [List.flatMap_cons, written_paths_append, ih]

theorem written_paths_ite (c : Prop) [Decidable c] (l : List Event) :
    written_paths (if c then l else []) = if c then written_paths l else [] := by
  split_ifs <;> rfl

theorem written_paths_write_fields (e : Run) (table : List Char) (step index : Int) :
    written_paths (write_fields e table step index)
      = (List.range (nphases e)).map (fun i => output_path (phase_name table i) index) := by
  simp only [write_fields]
  induction List.range (nphases e) with
  | nil => rfl
  | cons i l ih =>
    simp only [List.map_cons, written_paths, List.filterMap_cons] at ih ⊢
    rw [ih]

theorem written_paths_none (l : List Event)
    (h : ∀ ev ∈ l, ∀ path status, ev ≠ h5_write_dataset path status) : written_paths l = [] := by
  simp only [written_paths, List.filterMap_eq_nil_iff]
  intro ev hev
  cases ev <;> first | rfl | exact absurd rfl (h _ hev _ _)

theorem written_paths_readGlobalData (h5 : Store) (filename : String) (SPF_NDIMS : Int) :
    written_paths (readGlobalData h5 filename SPF_NDIMS) = [] := by
  apply written_paths_none
  intro ev hev path status
  simp only [readGlobalData, List.mem_append, List.mem_flatMap, List.mem_cons,
    List.mem_singleton, List.mem_ite_nil_right, List.not_mem_nil, or_false] at hev
  aesop

theorem written_paths_init (e : Run) :
    written_paths (init_events e 0)
      = (List.range (nphases e)).map
          (fun i => output_path (phase_name ((phase_names e).getD []) i) 0) := by
  have hmap : ∀ (f : Nat → Event), (∀ i path status, f i ≠ h5_write_dataset path status) →
      written_paths ((List.range (nphases e)).map f) = [] := by
    intro f hf
    apply written_paths_none
    intro ev hev
    simp only [List.mem_map] at hev
    obtain ⟨i, _, rfl⟩ := hev
    exact hf i
  simp only [init_events, root_init, written_paths_append, written_paths_ite,
    written_paths_readGlobalData, written_paths_write_fields, if_true,
    hmap grid_scatter (by simp), hmap grid_share (by simp)]
  simp only [written_paths, List.filterMap_cons, List.filterMap_nil, List.nil_append,
    List.append_nil]
  split_ifs <;> rfl

theorem written_paths_step (e : Run) (table : List Char) (istep : Int) :
    written_paths (step_events e 0 table istep)
      = if istep.tmod e.output_frequency = 0 then
          (List.range (nphases e)).map
            (fun i => output_path (phase_name table i) (istep.tdiv e.output_frequency))
        else [] := by
  have hmap : ∀ (f : Nat → Event), (∀ i path status, f i ≠ h5_write_dataset path status) →
      written_paths ((List.range (nphases e)).map f) = [] := by
    intro f hf
    apply written_paths_none
    intro ev hev
    simp only [List.mem_map] at hev
    obtain ⟨i, _, rfl⟩ := hev
    exact hf i
  simp only [step_events, output_events, written_paths_append, written_paths_ite,
    written_paths_write_fields, if_true, hmap grid_share (by simp), hmap grid_gather (by simp)]
  simp only [written_paths, List.filterMap_cons, List.filterMap_nil, List.nil_append,
    List.append_nil]
  split_ifs <;> rfl

theorem written_paths_final (rank : Nat) : written_paths (final_events rank) = [] := by
  simp only [final_events]
  split_ifs <;> rfl

/-! ## The write schedule -/

theorem flatMap_ite {α β : Type} (p : α → Prop) [DecidablePred p] (f : α → List β)
    (l : List α) :
    l.flatMap (fun s => if p s then f s else []) = (l.filter (fun s => decide (p s))).flatMap f := by
  induction l with
  | nil => rfl
  | cons a l ih =>
    by_cases h : p a
    · simp [List.flatMap_cons, List.filter_cons, h, ih]
    · simp [List.flatMap_cons, List.filter_cons, h, ih]

theorem output_steps_indices (n k : Nat) :
    ((List.range' 1 n).filter (fun s => s % k = 0)).map (fun s => s / k)
      = List.range' 1 (n / k) := by
  induction n with
  | zero => simp
  | succ n ih =>
    rw [List.range'_1_concat, List.filter_append, List.map_append, ih]
    by_cases h : (1 + n) % k = 0
    · have hdvd : k ∣ n + 1 := by
        apply Nat.dvd_of_mod_eq_zero
        rw [Nat.add_comm n 1]
        exact h
      have hq : (n + 1) / k = n / k + 1 := Nat.succ_div_of_dvd hdvd
      have h1 : (1 + n) / k = 1 + n / k := by rw [Nat.add_comm 1 n, hq, Nat.add_comm]
      rw [hq, List.range'_1_concat]
      simp [List.filter_cons, h, h1]
    · have hdvd : ¬ k ∣ n + 1 := by
        intro hd
        apply h
        rw [Nat.add_comm 1 n]
        exact Nat.mod_eq_zero_of_dvd hd
      have hq : (n + 1) / k = n / k := Nat.succ_div_of_not_dvd hdvd
      rw [hq]
      simp [List.filter_cons, h]

theorem written_paths_main (e : Run) (hr : reaches_stepping e 0 = true)
    (hheap : ∀ i, i < SLOT * nphases e → e.heap i = NUL)
    (hnames : ∀ name ∈ e.h5.name_list, (c_str name).length < SLOT ∧ NUL ∉ c_str name)
    (hn : 10 ≤ e.nsteps) (hf : 1 ≤ e.output_frequency) :
    written_paths (main e 0)
      = (e.h5.name_list.map byte_string).map (fun name => output_path name 0)
        ++ (steps e.nsteps).flatMap (fun istep =>
            if istep.tmod e.output_frequency = 0 then
              (e.h5.name_list.map byte_string).map
                (fun name => output_path name (istep.tdiv e.output_frequency))
            else []) := by
  have htable : (phase_names e).getD [] = e.h5.name_list.flatMap slot := by
    rw [phase_names_zero e hheap hnames]
    rfl
  have hpaths : ∀ index : Int,
      (List.range (nphases e)).map
          (fun i => output_path (phase_name (e.h5.name_list.flatMap slot) i) index)
        = (e.h5.name_list.map byte_string).map (fun name => output_path name index) := by
    intro index
    have h := congrArg (List.map (fun name => output_path name index))
      (phase_name_list e.h5.name_list hnames)
    simpa [List.map_map, Function.comp_def, nphases] using h
  rw [main_complete e 0 hr (by omega) (tdiv_ten_ne_zero _ hn)]
  simp only [written_paths_append, written_paths_init, written_paths_final, loop_events,
    written_paths_flatMap, written_paths_step, htable, hpaths, List.append_nil]

theorem output_steps_nat {β : Type} (g : Int → List β) (n k : Nat) :
    (steps (n : Int)).flatMap (fun istep => if istep.tmod (k : Int) = 0 then
        g (istep.tdiv (k : Int)) else [])
      = ((List.range' 1 n).filter (fun s => s % k = 0)).flatMap
          (fun s => g ((s / k : Nat) : Int)) := by
  simp only [steps, Int.toNat_ofNat, List.flatMap_map]
  rw [← flatMap_ite]
  apply List.flatMap_congr
  intro s _
  have hm : (Int.ofNat s).tmod (k : Int) = ((s % k : Nat) : Int) := (Int.ofNat_tmod s k).symm
  have hd : (Int.ofNat s).tdiv (k : Int) = ((s / k : Nat) : Int) := (Int.ofNat_tdiv s k).symm
  simp only [Function.comp_apply, hm, hd]
  by_cases h0 : s % k = 0
  · have : ((s % k : Nat) : Int) = 0 := by exact_mod_cast h0
    rw [if_pos this, if_pos h0]
  · have : ¬ ((s % k : Nat) : Int) = 0 := by exact_mod_cast h0
    rw [if_neg this, if_neg h0]

theorem output_indices_range {β : Type} (g : Int → List β) (n k : Nat) :
    g 0 ++ ((List.range' 1 n).filter (fun s => s % k = 0)).flatMap
        (fun s => g ((s / k : Nat) : Int))
      = (List.range (n / k + 1)).flatMap (fun index => g (index : Int)) := by
  have hrange : List.range (n / k + 1) = 0 :: List.range' 1 (n / k) := by
    rw [List.range_eq_range', List.range'_succ]
  rw [hrange, List.flatMap_cons, ← output_steps_indices n k, List.flatMap_map]
  rfl

theorem split_at_last_separator (x : Char) (d1 d2 : List Char) (h1 : x ∉ d1) (h2 : x ∉ d2) :
    ∀ l1 l2 : List Char, l1 ++ x :: d1 = l2 ++ x :: d2 → l1 = l2 ∧ d1 = d2 := by
  intro l1
  induction l1 with
  | nil =>
    intro l2 h
    cases l2 with
    | nil => simpa using h
    | cons y l2 =>
      simp only [List.nil_append, List.cons_append, List.cons.injEq] at h
      exact absurd (h.2 ▸ (by simp : x ∈ l2 ++ x :: d2)) h1
  | cons a l1 ih =>
    intro l2 h
    cases l2 with
    | nil =>
      simp only [List.nil_append, List.cons_append, List.cons.injEq] at h
      exact absurd (h.2 ▸ (by simp : x ∈ l1 ++ x :: d1)) h2
    | cons y l2 =>
      simp only [List.cons_append, List.cons.injEq] at h
      obtain ⟨hl, hd⟩ := ih l2 h.2
      exact ⟨by rw [h.1, hl], hd⟩

theorem slash_not_in_digits (n : Nat) : '/' ∉ setw_fill 6 '0' (int_chars (n : Int)) := by
  intro h
  have := setw_fill_isDigit n '/' h
  exact absurd this (by decide)

theorem output_path_injective (name1 name2 : String) (index1 index2 : Nat)
    (h : output_path name1 (index1 : Int) = output_path name2 (index2 : Int)) :
    name1 = name2 ∧ index1 = index2 := by
  have h := congrArg String.data h
  simp only [output_path, List.cons_append, List.cons.injEq, true_and] at h
  obtain ⟨hn, hd⟩ := split_at_last_separator '/' _ _ (slash_not_in_digits index1)
    (slash_not_in_digits index2) _ _ h
  refine ⟨String.ext hn, ?_⟩
  have hv := congrArg decimal_value hd
  rwa [setw_fill_value, setw_fill_value] at hv

theorem scheduled_paths_nodup (names : List String) (hnames : names.Nodup) (m : Nat) :
    ((List.range m).flatMap
      (fun index => names.map (fun name => output_path name (index : Int)))).Nodup := by
  rw [List.nodup_flatMap]
  refine ⟨?_, ?_⟩
  · intro index _
    apply List.Nodup.map _ hnames
    intro a b hab
    exact (output_path_injective a b index index hab).1
  · apply List.Pairwise.imp_of_mem _ (List.nodup_range m)
    intro i j _ _ hij
    simp only [Function.onFun, List.disjoint_left, List.mem_map]
    rintro path ⟨a, _, rfl⟩ ⟨b, _, hb⟩
    exact hij (output_path_injective b a j i hb).2.symm

theorem written_paths_nodup (e : Run) (n k : Nat)
    (hr : reaches_stepping e 0 = true)
    (hheap : ∀ i, i < SLOT * nphases e → e.heap i = NUL)
    (hnames : ∀ name ∈ e.h5.name_list, (c_str name).length < SLOT ∧ NUL ∉ c_str name)
    (hdistinct : (e.h5.name_list.map byte_string).Nodup)
    (hn : e.nsteps = n) (hk : e.output_frequency = k) (h10 : 10 ≤ n) (h1 : 1 ≤ k) :
    (written_paths (main e 0)).Nodup := by
  have hw := written_paths_main e hr hheap hnames (by omega) (by omega)
  rw [hw, hn, hk,
    output_steps_nat (fun index =>
      (e.h5.name_list.map byte_string).map (fun name => output_path name index)),
    output_indices_range
      (fun index => (e.h5.name_list.map byte_string).map
        (fun name => output_path name index)) n k]
  exact scheduled_paths_nodup _ hdistinct _

/-! ## The write schedule and the name table on sample runs -/

set_option maxRecDepth 100000 in
/-- C3 fails on the code: the three field names are pairwise distinct, the name
table is zero-filled, and rank 0 writes the path `/qyz/000000` twice. -/
theorem name_table_collision :
    [long_name, "q", "qyz"].Nodup ∧
    (written_paths (main (sample_run 1 10 10 (sample_store [long_name, "q", "qyz"] 0 0) 0) 0)).count
      "/qyz/000000" = 2 ∧
    ¬ (written_paths
        (main (sample_run 1 10 10 (sample_store [long_name, "q", "qyz"] 0 0) 0) 0)).Nodup := by
  decide

set_option maxRecDepth 100000 in
/-- A name of 53 characters that takes 103 bytes spills into the next slot just as a
name of 103 ASCII characters does: `/qyz/000000` is written twice. -/
theorem two_byte_name_collision :
    two_byte_name.length = 53 ∧ (c_str two_byte_name).length = 103 ∧
    (written_paths
      (main (sample_run 1 10 10 (sample_store [two_byte_name, "q", "qyz"] 0 0) 0) 0)).count
      "/qyz/000000" = 2 := by
  decide

/-! ## What getting to the time-stepping loop takes -/

theorem init_halt_events (e : Run) (rank : Nat) (ev : Event) (hev : ev ∈ init_events e rank)
    (hh : ev.halts = true) :
    (ev = MPI_Abort 0 ∧ rank = 0 ∧
      (e.h5.open_status > 0 ∨ data_ndims e.h5.global_dims ≠ e.SPF_NDIMS ∨ e.h5.list_status > 0 ∨
        e.h5.bad_alloc = true ∨ ∃ name ∈ e.h5.name_list, e.h5.read_status name > 0)) ∨
    (ev = out_of_bounds ∧ rank = 0 ∧ (phase_names e).isSome = false) ∨
    (ev = never_returns ∧ rank ≠ 0 ∧ (root_broadcast e).isNone = true) ∨
    (ev = MPI_Abort 0 ∧ e.setup_status > 0) ∨
    (ev = out_of_bounds ∧ (List.range (nphases e)).all
        (fun i => (c_string ((phase_names e).getD []) (i * SLOT)).isSome) = false) := by
  rw [halts_iff] at hh
  simp only [init_events, root_init, readGlobalData, write_fields, List.mem_append,
    List.mem_flatMap, List.mem_map, List.mem_cons, List.mem_singleton,
    List.mem_ite_nil_right, List.mem_ite_nil_left, List.not_mem_nil, or_false] at hev
  aesop

theorem root_init_in_init (e : Run) (ev : Event) (h : ev ∈ root_init e) :
    ev ∈ init_events e 0 := by
  simp only [init_events, if_true, List.mem_append]
  tauto

theorem read_failure_aborts (h5 : Store) (filename : String) (SPF_NDIMS : Int) (name : String)
    (hname : name ∈ h5.name_list) (hs : h5.read_status name > 0) :
    MPI_Abort 0 ∈ readGlobalData h5 filename SPF_NDIMS := by
  simp only [readGlobalData, List.mem_append, List.mem_flatMap]
  exact Or.inl (Or.inr ⟨name, hname, by simp [hs]⟩)

theorem reaches_stepping_root (e : Run) :
    reaches_stepping e 0 = true ↔
      e.h5.open_status ≤ 0 ∧ data_ndims e.h5.global_dims = e.SPF_NDIMS ∧
      e.h5.list_status ≤ 0 ∧ e.h5.bad_alloc = false ∧
      (∀ name ∈ e.h5.name_list, e.h5.read_status name ≤ 0) ∧
      (phase_names e).isSome = true ∧ e.setup_status ≤ 0 ∧
      (List.range (nphases e)).all
        (fun i => (c_string ((phase_names e).getD []) (i * SLOT)).isSome) = true := by
  rw [reaches_stepping_iff]
  constructor
  · intro h
    have key : ∀ ev, ev ∈ init_events e 0 → ev.halts = true → False := by
      intro ev hev hh
      rw [h ev hev] at hh
      exact absurd hh (by decide)
    refine ⟨?_, ?_, ?_, ?_, ?_, ?_, ?_, ?_⟩
    · by_contra hc
      exact key (MPI_Abort 0) (by simp [init_events, root_init, readGlobalData, not_le.mp hc]) rfl
    · by_contra hc
      exact key (MPI_Abort 0) (by simp [init_events, root_init, readGlobalData, hc]) rfl
    · by_contra hc
      exact key (MPI_Abort 0) (by simp [init_events, root_init, readGlobalData, not_le.mp hc]) rfl
    · by_contra hc
      exact key (MPI_Abort 0) (by simp [init_events, root_init, readGlobalData, hc]) rfl
    · intro name hname
      by_contra hc
      refine key (MPI_Abort 0) (root_init_in_init e _ ?_) rfl
      simp only [root_init, List.mem_append]
      exact Or.inl (read_failure_aborts _ _ _ name hname (not_le.mp hc))
    · by_contra hc
      exact key out_of_bounds (by simp [init_events, root_init, hc]) rfl
    · by_contra hc
      exact key (MPI_Abort 0) (by simp [init_events, not_le.mp hc]) rfl
    · by_contra hc
      refine key out_of_bounds ?_ rfl
      simp only [init_events, hc, List.mem_append]
      simp
  · rintro ⟨h1, h2, h3, h4, h5, h6, h7, h8⟩ ev hev
    by_contra hh
    have hh2 : ev.halts = true := by simpa using hh
    rcases init_halt_events e 0 ev hev hh2 with
      ⟨_, _, h | h | h | h | ⟨name, hname, h⟩⟩ | ⟨_, _, h⟩ | ⟨_, h, _⟩ | ⟨_, h⟩ | ⟨_, h⟩
    · omega
    · exact h h2
    · omega
    · rw [h4] at h
      exact absurd h (by decide)
    · have := h5 name hname
      omega
    · rw [h6] at h
      exact absurd h (by decide)
    · exact h rfl
    · omega
    · rw [h8] at h
      exact absurd h (by decide)

/-! ## Statuses that are checked -/

theorem read_failures_abort_append (a b : List Event) (ha : read_failures_abort a = true)
    (hb : read_failures_abort b = true) : read_failures_abort (a ++ b) = true := by
  induction a with
  | nil => simpa using hb
  | cons x a ih =>
    simp only [read_failures_abort, Bool.and_eq_true, Bool.or_eq_true,
      Bool.not_eq_true'] at ha
    simp only [List.cons_append, read_failures_abort, Bool.and_eq_true, Bool.or_eq_true,
      Bool.not_eq_true']
    refine ⟨?_, ih ha.2⟩
    rcases ha.1 with h | h
    · exact Or.inl h
    · right
      match a, h with
      | FILE_LOG logERROR _ :: FILE_LOG logERROR _ :: MPI_Abort 0 :: _, _ => rfl

theorem read_failures_abort_of_none (l : List Event) (h : ∀ ev ∈ l, read_failure ev = false) :
    read_failures_abort l = true := by
  induction l with
  | nil => rfl
  | cons x l ih =>
    simp only [read_failures_abort, Bool.and_eq_true, Bool.or_eq_true, Bool.not_eq_true']
    exact ⟨Or.inl (h x (List.mem_cons_self _ _)), ih (fun ev hev => h ev (List.mem_cons_of_mem _ hev))⟩

theorem checked_call (ev : Event) (c : Prop) [Decidable c] (a b : String)
    (h : read_failure ev = true → c) :
    read_failures_abort
      (ev :: (if c then [FILE_LOG logERROR a, FILE_LOG logERROR b, MPI_Abort 0] else []))
      = true := by
  by_cases hc : c
  · simp [hc, read_failures_abort, abort_next, read_failure]
  · have hev : read_failure ev = false := by
      by_contra hne
      exact hc (h (by simpa using hne))
    simp [hc, read_failures_abort, hev]

theorem read_failures_abort_readGlobalData (h5 : Store) (filename : String) (SPF_NDIMS : Int) :
    read_failures_abort (readGlobalData h5 filename SPF_NDIMS) = true := by
  have hreads : ∀ names : List String, read_failures_abort (names.flatMap (fun name =>
      h5_read_dataset name (h5.read_status name) ::
      (if h5.read_status name > 0 then
        [FILE_LOG logERROR ("Error reading datasets from file " ++ filename),
         FILE_LOG logERROR ("H5GRID READ_DATASET CODE: " ++ toString (h5.read_status name)),
         MPI_Abort 0]
      else []))) = true := by
    intro names
    induction names with
    | nil => rfl
    | cons name rest ih =>
      rw [List.flatMap_cons]
      exact read_failures_abort_append _ _
        (checked_call _ _ _ _ (by simp [read_failure])) ih
  have hquiet : ∀ (c : Prop) [Decidable c] (l : List Event),
      (∀ ev ∈ l, read_failure ev = false) →
      read_failures_abort (if c then l else []) = true := by
    intro c _ l hl
    split_ifs
    · exact read_failures_abort_of_none l hl
    · rfl
  simp only [readGlobalData, List.append_assoc, List.singleton_append]
  refine read_failures_abort_append _ _
    (checked_call (h5_open filename "r" h5.open_status) _ _ _ (by simp [read_failure])) ?_
  refine read_failures_abort_append _ _ (hquiet _ _ (by simp [read_failure])) ?_
  refine read_failures_abort_append _ _
    (checked_call (h5_list h5.list_status) _ _ _ (by simp [read_failure])) ?_
  refine read_failures_abort_append _ _ (hquiet _ _ (by simp [read_failure])) ?_
  exact read_failures_abort_append _ _ (hreads _) (by simp [read_failures_abort, read_failure])

theorem read_failures_abort_root_init (e : Run) : read_failures_abort (root_init e) = true := by
  unfold root_init
  refine read_failures_abort_append _ _ (read_failures_abort_readGlobalData _ _ _) ?_
  split_ifs <;> rfl

theorem read_failure_write_fields (e : Run) (table : List Char) (step index : Int) :
    ∀ ev ∈ write_fields e table step index, read_failure ev = false := by
  intro ev hev
  simp only [write_fields, List.mem_map] at hev
  obtain ⟨i, _, rfl⟩ := hev
  rfl

theorem read_failure_iff (ev : Event) :
    read_failure ev = true ↔
      (∃ file status, ev = h5_open file "r" status ∧ 0 < status) ∨
      (∃ status, ev = h5_list status ∧ 0 < status) ∨
      (∃ name status, ev = h5_read_dataset name status ∧ 0 < status) := by
  cases ev <;> simp [read_failure] <;> aesop

theorem read_failure_false_iff (ev : Event) :
    read_failure ev = false ↔
      (∀ file status, ev = h5_open file "r" status → status ≤ 0) ∧
      (∀ status, ev = h5_list status → status ≤ 0) ∧
      (∀ name status, ev = h5_read_dataset name status → status ≤ 0) := by
  rw [← Bool.not_eq_true, read_failure_iff]
  constructor
  · intro h
    refine ⟨?_, ?_, ?_⟩
    · intro file status hev
      by_contra hc
      exact h (Or.inl ⟨file, status, hev, not_le.mp hc⟩)
    · intro status hev
      by_contra hc
      exact h (Or.inr (Or.inl ⟨status, hev, not_le.mp hc⟩))
    · intro name status hev
      by_contra hc
      exact h (Or.inr (Or.inr ⟨name, status, hev, not_le.mp hc⟩))
  · rintro ⟨h1, h2, h3⟩ (⟨f, s, hev, hs⟩ | ⟨s, hev, hs⟩ | ⟨n, s, hev, hs⟩)
    · have := h1 f s hev
      omega
    · have := h2 s hev
      omega
    · have := h3 n s hev
      omega

theorem read_failures_abort_init (e : Run) :
    read_failures_abort (init_events e 0) = true := by
  have hq : ∀ l : List Event, (∀ ev ∈ l, read_failure ev = false) →
      read_failures_abort l = true := read_failures_abort_of_none
  simp only [init_events, if_true, List.append_assoc]
  refine read_failures_abort_append _ _ (hq _ (by simp [read_failure])) ?_
  refine read_failures_abort_append _ _ (hq _ (by simp)) ?_
  refine read_failures_abort_append _ _ (hq _ (by simp [read_failure])) ?_
  refine read_failures_abort_append _ _ (hq _ (by split_ifs <;> simp [read_failure])) ?_
  refine read_failures_abort_append _ _ (hq _ (by simp [read_failure])) ?_
  refine read_failures_abort_append _ _ (read_failures_abort_root_init e) ?_
  apply hq
  intro ev hev
  rw [read_failure_false_iff]
  simp only [write_fields, List.mem_append, List.mem_cons, List.mem_singleton, List.mem_map,
    List.mem_ite_nil_right, List.mem_ite_nil_left, List.not_mem_nil, or_false] at hev
  aesop

theorem read_failures_abort_rest (e : Run) :
    read_failures_abort (loop_events e 0 ++ final_events 0) = true := by
  apply read_failures_abort_of_none
  intro ev hev
  rw [read_failure_false_iff]
  simp only [loop_events, step_events, output_events, final_events, write_fields,
    List.mem_append, List.mem_flatMap, List.mem_cons, List.mem_singleton, List.mem_map,
    List.mem_ite_nil_right, List.mem_ite_nil_left, List.not_mem_nil, or_false] at hev
  aesop

theorem abort_next_shape (l : List Event) (h : abort_next l = true) :
    ∃ a b rest, l = FILE_LOG logERROR a :: FILE_LOG logERROR b :: MPI_Abort 0 :: rest := by
  match l, h with
  | FILE_LOG logERROR a :: FILE_LOG logERROR b :: MPI_Abort 0 :: rest, _ => exact ⟨a, b, rest, rfl⟩

theorem read_failure_not_halt (ev : Event) (h : read_failure ev = true) : ev.halts = false := by
  cases ev <;> first | rfl | simp [read_failure] at h

theorem failure_then_abort (l : List Event) (hg : read_failures_abort l = true) :
    ∀ (pre : List Event) (ev : Event) (post : List Event),
      until_halt l = pre ++ ev :: post → read_failure ev = true →
      ∃ a b, post = [FILE_LOG logERROR a, FILE_LOG logERROR b, MPI_Abort 0] := by
  induction l with
  | nil =>
    intro pre ev post h _
    simp [until_halt] at h
  | cons x l ih =>
    intro pre ev post h hf
    simp only [read_failures_abort, Bool.and_eq_true, Bool.or_eq_true,
      Bool.not_eq_true'] at hg
    by_cases hx : x.halts = true
    · simp only [until_halt, hx, if_true] at h
      cases pre with
      | nil =>
        simp only [List.nil_append, List.cons.injEq] at h
        obtain ⟨hxe, _⟩ := h
        subst hxe
        rw [read_failure_not_halt x hf] at hx
        exact absurd hx (by decide)
      | cons y pre =>
        simp only [List.cons_append, List.cons.injEq] at h
        exact absurd h.2 (by simp)
    · have hx2 : x.halts = false := by simpa using hx
      simp only [until_halt, hx2, Bool.false_eq_true, if_false] at h
      cases pre with
      | nil =>
        simp only [List.nil_append, List.cons.injEq] at h
        obtain ⟨hxe, hpost⟩ := h
        subst hxe
        rcases hg.1 with hno | hnext
        · rw [hno] at hf
          exact absurd hf (by decide)
        · obtain ⟨a, b, rest, rfl⟩ := abort_next_shape l hnext
          refine ⟨a, b, ?_⟩
          rw [← hpost]
          simp [until_halt, Event.halts]
      | cons y pre =>
        simp only [List.cons_append, List.cons.injEq] at h
        exact ih hg.2 pre ev post h.2 hf

/-- On rank 0, a status above zero from the `open`, `list` or `read_dataset` call of
`readGlobalData` is followed by two error lines and `MPI_Abort`, and by no other
call: no later store operation and no time step. -/
theorem read_failure_aborts_at_once (e : Run) (pre : List Event) (ev : Event)
    (post : List Event) (h : main e 0 = pre ++ ev :: post) (hf : read_failure ev = true) :
    ∃ a b, post = [FILE_LOG logERROR a, FILE_LOG logERROR b, MPI_Abort 0] := by
  refine failure_then_abort _ ?_ pre ev post h hf
  rw [List.append_assoc]
  exact read_failures_abort_append _ _ (read_failures_abort_init e)
    (read_failures_abort_rest e)

end PADI
